import Mathlib

/-!
Verification development for the display-presentation and task-scheduling
core of flutter-pi (headers: include/flutter-pi.h, include/modesetting.h,
src/util/collection.h).

C code is shallowly embedded: pointers become Option-indices, byte blocks
become lists of Nat, machine integers become Nat/Int, fallible allocation
becomes an explicit Boolean oracle, and C macro expansion is modelled as a
function that additionally receives the bindings of the free identifiers the
macro body references at its use site.
-/

/- ------------------------------------------------------------------ -/
/- memdup, embedded from include/flutter-pi.h lines 83-92.
   The heap is left implicit: the returned block is represented by the list
   of bytes it holds after the memcpy, `none` models a NULL return.
   `allocation_succeeds` is the malloc oracle. memcpy copies the first n
   bytes of src into the fresh block and returns that block. -/

def memdup (allocation_succeeds : Bool) (src : Option (List Nat)) (n : Nat) :
    Option (List Nat) :=
  if src = none ∨ n = 0 then none
  else
    match src with
    | none => none
    | some s => if allocation_succeeds then some (s.take n) else none

/- memdup, embedded from src/util/collection.h lines 267-278 (the second,
   textually identical definition of the same function). -/

def memdup_collection (allocation_succeeds : Bool) (src : Option (List Nat))
    (n : Nat) : Option (List Nat) :=
  if src = none ∨ n = 0 then none
  else
    match src with
    | none => none
    | some s => if allocation_succeeds then some (s.take n) else none

/- ------------------------------------------------------------------ -/
/- struct queue and the QUEUE_INITIALIZER / CQUEUE_INITIALIZER macros,
   embedded from src/util/collection.h lines 27-42 and 78-92.

   The macro bodies reference the identifier `_max_queue_size`, which is NOT
   a parameter of either macro (the second parameter is named `_max_size`
   and is never used in the body).  C macro expansion is purely textual, so
   the expansion contains the free identifier `_max_queue_size`, resolved in
   the scope of the use site: if no such variable is in scope the program
   does not compile.  We model this with an extra argument
   `scope_max_queue_size : Option Nat` holding the use-site binding of that
   identifier (`none` = no such variable in scope, i.e. compile error,
   modelled as no value). -/

structure queue where
  start_index : Nat
  length : Nat
  size : Nat
  elements : Option Nat
  max_queue_size : Nat
  element_size : Nat
deriving DecidableEq, Repr

structure concurrent_queue where
  mutex : Unit
  is_dequeueable : Unit
  is_enqueueable : Unit
  queue : queue
deriving DecidableEq, Repr

def QUEUE_INITIALIZER (element_type_size : Nat) (_max_size : Nat)
    (scope_max_queue_size : Option Nat) : Option queue :=
  scope_max_queue_size.map fun v =>
    { start_index := 0
      length := 0
      size := 0
      elements := none
      max_queue_size := v
      element_size := element_type_size }

def CQUEUE_INITIALIZER (element_type_size : Nat) (_max_size : Nat)
    (scope_max_queue_size : Option Nat) : Option concurrent_queue :=
  match scope_max_queue_size with
  | none => none
  | some v =>
      (QUEUE_INITIALIZER element_type_size v scope_max_queue_size).map fun q =>
        { mutex := ()
          is_dequeueable := ()
          is_enqueueable := ()
          queue := q }

/- ------------------------------------------------------------------ -/
/- flutterpi_task_type and struct flutterpi_task, embedded from
   include/flutter-pi.h lines 26-28 and 45-81.  The anonymous union is
   embedded as a type family indexed by the discriminator, mapping each
   task kind to the union member the code reads for that kind.  Function
   pointers and engine handles are opaque and become Nat. -/

inductive device_orientation where
  | kPortraitUp
  | kLandscapeLeft
  | kPortraitDown
  | kLandscapeRight
deriving DecidableEq, Repr

inductive flutterpi_task_type where
  | kVBlankRequest
  | kVBlankReply
  | kUpdateOrientation
  | kSendPlatformMessage
  | kRespondToPlatformMessage
  | kFlutterTask
  | kRegisterExternalTexture
  | kUnregisterExternalTexture
  | kMarkExternalTextureFrameAvailable
  | kGeneric
deriving DecidableEq, Repr

/-- The `uint64_t vblank_ns; intptr_t baton;` member of the union. -/
structure vblank_data where
  vblank_ns : Nat
  baton : Int
deriving DecidableEq, Repr

/-- The platform-message member of the union: channel, response handle,
message size and message bytes. -/
structure platform_message_data where
  channel : String
  responsehandle : Nat
  message_size : Nat
  message : List Nat
deriving DecidableEq, Repr

/-- The generic-callback member of the union. -/
structure generic_callback_data where
  callback : Nat
  userdata : Nat
deriving DecidableEq, Repr

/-- Which member of the anonymous union a task of the given kind carries. -/
def task_union : flutterpi_task_type → Type
  | .kVBlankRequest => vblank_data
  | .kVBlankReply => vblank_data
  | .kUpdateOrientation => device_orientation
  | .kSendPlatformMessage => platform_message_data
  | .kRespondToPlatformMessage => platform_message_data
  | .kFlutterTask => Nat
  | .kRegisterExternalTexture => Int
  | .kUnregisterExternalTexture => Int
  | .kMarkExternalTextureFrameAvailable => Int
  | .kGeneric => generic_callback_data

structure flutterpi_task where
  next : Option Nat
  type : flutterpi_task_type
  data : task_union type
  target_time : Nat

/-- The ten task kinds in declaration order. -/
def all_task_types : List flutterpi_task_type :=
  [.kVBlankRequest, .kVBlankReply, .kUpdateOrientation, .kSendPlatformMessage,
   .kRespondToPlatformMessage, .kFlutterTask, .kRegisterExternalTexture,
   .kUnregisterExternalTexture, .kMarkExternalTextureFrameAvailable, .kGeneric]

/- ------------------------------------------------------------------ -/
/- The resource model of include/modesetting.h lines 10-58, and the
   __next_* iteration helpers of lines 122-185.  A pointer into one of the
   per-device resource arrays is embedded as an Option-index: `none` is
   NULL, `some i` is `array + i`.  Pointer equality `array + i == p`
   becomes `p = some i`.  Hardware descriptors irrelevant to the claims
   are opaque Nats. -/

structure drm_connector where
  connector_id : Nat
  count_modes : Nat
  modes : List Nat
  props : List (String × Nat)
deriving DecidableEq, Repr

structure drm_encoder where
  encoder_id : Nat
deriving DecidableEq, Repr

structure drm_crtc where
  crtc_id : Nat
  props : List (String × Nat)
deriving DecidableEq, Repr

structure drm_plane where
  plane_id : Nat
  props : List (String × Nat)
deriving DecidableEq, Repr

structure drmdev where
  fd : Int
  n_connectors : Nat
  connectors : List drm_connector
  n_encoders : Nat
  encoders : List drm_encoder
  n_crtcs : Nat
  crtcs : List drm_crtc
  n_planes : Nat
  planes : List drm_plane
  is_configured : Bool
  selected_connector : Option Nat
  selected_encoder : Option Nat
  selected_crtc : Option Nat
  selected_mode : Option Nat
  selected_mode_blob_id : Nat
deriving DecidableEq, Repr

/-- The loop shared by all five __next_* helpers: `found` starts as
`(p == NULL)`; each iteration i sets `found` when `array + i == p` and
otherwise returns `array + i` once `found` holds; falling off the end
returns NULL. -/
def next_loop (n : Nat) (cur : Option Nat) (i : Nat) (found : Bool) :
    Option Nat :=
  if h : i < n then
    if cur = some i then next_loop n cur (i + 1) true
    else if found then some i
    else next_loop n cur (i + 1) found
  else none
termination_by n - i
decreasing_by all_goals omega

def __next_connector (d : drmdev) (connector : Option Nat) : Option Nat :=
  next_loop d.n_connectors connector 0 connector.isNone

def __next_encoder (d : drmdev) (encoder : Option Nat) : Option Nat :=
  next_loop d.n_encoders encoder 0 encoder.isNone

def __next_crtc (d : drmdev) (crtc : Option Nat) : Option Nat :=
  next_loop d.n_crtcs crtc 0 crtc.isNone

def __next_plane (d : drmdev) (plane : Option Nat) : Option Nat :=
  next_loop d.n_planes plane 0 plane.isNone

def __next_mode (c : drm_connector) (mode : Option Nat) : Option Nat :=
  next_loop c.count_modes mode 0 mode.isNone

/-- The for_each_*_in_drmdev traversal pattern: start the cursor at NULL,
collect each non-NULL cursor value, stop at NULL.  `fuel` bounds the
number of steps so the definition is total; the theorems use enough fuel
for the loop to run to its NULL return. -/
def iterate_next (f : Option Nat → Option Nat) : Nat → Option Nat → List Nat
  | 0, _ => []
  | fuel + 1, cur =>
      match f cur with
      | none => []
      | some i => i :: iterate_next f fuel (some i)

def connector_traversal (d : drmdev) : List Nat :=
  iterate_next (__next_connector d) (d.n_connectors + 1) none

def encoder_traversal (d : drmdev) : List Nat :=
  iterate_next (__next_encoder d) (d.n_encoders + 1) none

def crtc_traversal (d : drmdev) : List Nat :=
  iterate_next (__next_crtc d) (d.n_crtcs + 1) none

def plane_traversal (d : drmdev) : List Nat :=
  iterate_next (__next_plane d) (d.n_planes + 1) none

def mode_traversal (c : drm_connector) : List Nat :=
  iterate_next (__next_mode c) (c.count_modes + 1) none

lemma next_loop_found (n : Nat) (cur : Option Nat) (i : Nat)
    (h : ∀ j, i ≤ j → cur ≠ some j) :
    next_loop n cur i true = if i < n then some i else none := by
  rw [next_loop]
  by_cases hi : i < n
  · simp [hi, h i le_rfl]
  · simp [hi]

lemma next_loop_seeking (n k : Nat) (hk : k < n) :
    ∀ fuel i, k - i ≤ fuel → i ≤ k →
      next_loop n (some k) i false =
        if k + 1 < n then some (k + 1) else none := by
  intro fuel
  induction fuel with
  | zero =>
      intro i hf hi
      have hik : i = k := by omega
      subst hik
      rw [next_loop]
      have hr := next_loop_found n (some i) (i + 1)
        (by intro j hj hc; simp at hc; omega)
      simp only [dif_pos hk, if_pos rfl]
      exact hr
  | succ f ih =>
      intro i hf hi
      by_cases hik : i = k
      · subst hik
        rw [next_loop]
        have hr := next_loop_found n (some i) (i + 1)
          (by intro j hj hc; simp at hc; omega)
        simp only [dif_pos hk, if_pos rfl]
        exact hr
      · have hilt : i < k := by omega
        rw [next_loop]
        have hin : i < n := by omega
        have hne : (some k : Option Nat) ≠ some i := by
          simp; omega
        simp only [dif_pos hin, if_neg hne, if_neg (Bool.false_ne_true)]
        exact ih (i + 1) (by omega) (by omega)

/-- Behaviour of the shared loop started from NULL. -/
lemma next_loop_from_null (n : Nat) :
    next_loop n none 0 true = if 0 < n then some 0 else none :=
  next_loop_found n none 0 (by intro j _ hc; exact Option.noConfusion hc)

/-- Behaviour of the shared loop started from a valid element pointer. -/
lemma next_loop_from_elem (n k : Nat) (hk : k < n) :
    next_loop n (some k) 0 false =
      if k + 1 < n then some (k + 1) else none :=
  next_loop_seeking n k hk k 0 (by omega) (by omega)

/-- Iterating any next-function with the two step behaviours above from a
valid cursor `some k` yields the indices k+1, ..., n-1. -/
lemma iterate_next_from_elem (f : Option Nat → Option Nat) (n : Nat)
    (hstep : ∀ k, k < n → f (some k) = if k + 1 < n then some (k + 1) else none) :
    ∀ fuel k, k < n → n - 1 - k ≤ fuel →
      iterate_next f fuel (some k) = List.range' (k + 1) (n - 1 - k) := by
  intro fuel
  induction fuel with
  | zero =>
      intro k hk hf
      have : n - 1 - k = 0 := by omega
      simp [iterate_next, this]
  | succ m ih =>
      intro k hk hf
      by_cases hlast : k + 1 < n
      · have hstep' := hstep k hk
        rw [if_pos hlast] at hstep'
        have hrec := ih (k + 1) hlast (by omega)
        have hlen : n - 1 - k = (n - 1 - (k + 1)) + 1 := by omega
        simp [iterate_next, hstep', hrec, hlen, List.range'_succ]
      · have hstep' := hstep k hk
        rw [if_neg hlast] at hstep'
        have : n - 1 - k = 0 := by omega
        simp [iterate_next, hstep', this]

/-- Iterating any next-function with the two step behaviours from NULL
with fuel at least n yields exactly the indices 0, ..., n-1 in order. -/
lemma iterate_next_range (f : Option Nat → Option Nat) (n : Nat)
    (hnull : f none = if 0 < n then some 0 else none)
    (hstep : ∀ k, k < n → f (some k) = if k + 1 < n then some (k + 1) else none) :
    iterate_next f (n + 1) none = List.range n := by
  by_cases hn : 0 < n
  · rw [if_pos hn] at hnull
    have hrec := iterate_next_from_elem f n hstep n 0 hn (by omega)
    have : n = (n - 1 - 0) + 1 := by omega
    rw [List.range_eq_range']
    conv_rhs => rw [this]
    simp [iterate_next, hnull, hrec, List.range'_succ]
  · rw [if_neg hn] at hnull
    have hz : n = 0 := by omega
    simp [iterate_next, hnull, hz]

/-- Mapping element lookup over the index range recovers the array. -/
lemma map_getElem?_range {α : Type} :
    ∀ l : List α, (List.range l.length).map (fun i => l[i]?) = l.map some := by
  intro l
  induction l with
  | nil => simp
  | cons a t ih =>
      rw [List.length_cons, List.range_succ_eq_map]
      simp only [List.map_cons, List.map_map]
      refine congrArg₂ List.cons (by simp) ?_
      rw [← ih]
      refine List.map_congr_left ?_
      intro i _
      simp

/- ------------------------------------------------------------------ -/
/- Atomic request builder: struct drmdev_atomic_req from
   include/modesetting.h lines 60-63 plus the put-property operations.
   The bodies of drmdev_atomic_req_put_*_property are not under src/
   (modesetting.h only declares them), so they are modelled from the
   spec. -/

/-- The accumulated atomic request: the device it is bound to and the
queued (object id, property id, value) triples in queueing order. -/
structure drmdev_atomic_req where
  drmdev : drmdev
  atomic_req : List (Nat × Nat × Nat)
deriving DecidableEq, Repr

inductive put_property_error where
  | UnknownProperty
deriving DecidableEq, Repr

/-- Linear search of an object's cached property table (name → id), as the
per-object `props_info` name scan. -/
def lookup_prop : List (String × Nat) → String → Option Nat
  | [], _ => none
  | (nm, id) :: rest, name =>
      if nm = name then some id else lookup_prop rest name

/-- Modelled from the spec: the shared core of the put-property operations
(spec 4.2): resolve the name against the given object's cached property
table; queue the (object id, property id, value) triple when the name
exists, fail with UnknownProperty, queueing nothing, when it does not. -/
def atomic_req_put_property (req : drmdev_atomic_req) (object_id : Nat)
    (props : List (String × Nat)) (name : String) (value : Nat) :
    Except put_property_error drmdev_atomic_req :=
  match lookup_prop props name with
  | some prop_id =>
      .ok { req with atomic_req := req.atomic_req ++ [(object_id, prop_id, value)] }
  | none => .error .UnknownProperty

/-- Modelled from the spec: drmdev_atomic_req_put_connector_property
(declared at include/modesetting.h lines 92-96, body not under src/)
resolves the name against the selected connector's property table.  An
unconfigured device is modelled as resolution failure; the theorem only
concerns configured devices. -/
def drmdev_atomic_req_put_connector_property (req : drmdev_atomic_req)
    (name : String) (value : Nat) :
    Except put_property_error drmdev_atomic_req :=
  match req.drmdev.selected_connector.bind (fun i => req.drmdev.connectors[i]?) with
  | some conn => atomic_req_put_property req conn.connector_id conn.props name value
  | none => .error .UnknownProperty

/-- Modelled from the spec: drmdev_atomic_req_put_crtc_property (declared
at include/modesetting.h lines 98-102, body not under src/). -/
def drmdev_atomic_req_put_crtc_property (req : drmdev_atomic_req)
    (name : String) (value : Nat) :
    Except put_property_error drmdev_atomic_req :=
  match req.drmdev.selected_crtc.bind (fun i => req.drmdev.crtcs[i]?) with
  | some crtc => atomic_req_put_property req crtc.crtc_id crtc.props name value
  | none => .error .UnknownProperty

/-- Linear search of the device's plane list by plane id. -/
def find_plane : List drm_plane → Nat → Option drm_plane
  | [], _ => none
  | p :: rest, id => if p.plane_id = id then some p else find_plane rest id

/-- Modelled from the spec: drmdev_atomic_req_put_plane_property (declared
at include/modesetting.h lines 104-109, body not under src/) locates the
plane with the given id and resolves the name against that plane's
property table. -/
def drmdev_atomic_req_put_plane_property (req : drmdev_atomic_req)
    (plane_id : Nat) (name : String) (value : Nat) :
    Except put_property_error drmdev_atomic_req :=
  match find_plane req.drmdev.planes plane_id with
  | some pl => atomic_req_put_property req pl.plane_id pl.props name value
  | none => .error .UnknownProperty

/- ------------------------------------------------------------------ -/
/- Framebuffer cache: struct drm_fb from include/flutter-pi.h lines 94-97.
   The body of drm_fb_get_from_bo is not under src/ (flutter-pi.h line 256
   only declares it), so the lookup-or-create behaviour is modelled from
   spec 4.3.  A gbm buffer object identity is a Nat. -/

structure drm_fb where
  bo : Nat
  fb_id : Nat
deriving DecidableEq, Repr

inductive fb_error where
  | FramebufferError
deriving DecidableEq, Repr

/-- The framebuffer cache plus instrumentation: the kernel framebuffer id
the next creation will receive and a count of kernel framebuffer objects
created so far. -/
structure fb_cache where
  fbs : List drm_fb
  next_fb_id : Nat
  kernel_fb_objects_created : Nat
deriving DecidableEq, Repr

/-- Cache lookup by buffer-object identity. -/
def find_fb : List drm_fb → Nat → Option drm_fb
  | [], _ => none
  | fb :: rest, bo => if fb.bo = bo then some fb else find_fb rest bo

/-- Modelled from the spec: drm_fb_get_from_bo (declared at
include/flutter-pi.h line 256, body not under src/) per spec 4.3: look up
the cache by buffer identity; on miss create a kernel framebuffer object
(when the kernel accepts the buffer's format/modifier, given by the
`kernel_accepts` oracle) and insert it; on rejection fail with
FramebufferError. -/
def drm_fb_get_from_bo (kernel_accepts : Nat → Bool) (cache : fb_cache)
    (bo : Nat) : Except fb_error (Nat × fb_cache) :=
  match find_fb cache.fbs bo with
  | some fb => .ok (fb.fb_id, cache)
  | none =>
      if kernel_accepts bo then
        .ok (cache.next_fb_id,
          { fbs := cache.fbs ++ [⟨bo, cache.next_fb_id⟩]
            next_fb_id := cache.next_fb_id + 1
            kernel_fb_objects_created := cache.kernel_fb_objects_created + 1 })
      else .error .FramebufferError

lemma find_fb_append_self (l : List drm_fb) (bo id : Nat)
    (h : find_fb l bo = none) :
    find_fb (l ++ [⟨bo, id⟩]) bo = some ⟨bo, id⟩ := by
  induction l with
  | nil => simp [find_fb]
  | cons fb rest ih =>
      rw [find_fb] at h
      by_cases hb : fb.bo = bo
      · simp [hb] at h
      · rw [List.cons_append, find_fb, if_neg hb]
        exact ih (by rwa [if_neg hb] at h)

/- ------------------------------------------------------------------ -/
/- Task queue and scheduler.  struct flutterpi_task (the pending list) is
   in include/flutter-pi.h lines 58-81, but the list manipulation behind
   post_platform_task (declared at line 258) and the consumer loop is not
   under src/, so the queue discipline is modelled from spec 4.4: the
   pending list is kept in submission order, and wait_and_take_next
   returns the globally earliest-target-time entry, taking the first
   (earliest-submitted) entry among equal target times. -/

/-- A posted task reduced to what the ordering claim observes: its target
time and its submission index. -/
structure pending_task where
  target_time : Nat
  seq : Nat
deriving DecidableEq, Repr

/-- Submission order: `a` was submitted before `b`. -/
def submitted_before (a b : pending_task) : Prop := a.seq < b.seq

/-- Delivery order required by the claim: strictly earlier target time, or
equal target time and earlier submission. -/
def delivered_before (a b : pending_task) : Prop :=
  a.target_time < b.target_time ∨
    (a.target_time = b.target_time ∧ a.seq < b.seq)

/-- Modelled from the spec: the consumer side of the queue
(wait_and_take_next, spec 4.4; implementation not under src/): remove and
return the first entry of the submission-ordered pending list whose
target time is minimal. -/
def wait_and_take_next :
    List pending_task → Option (pending_task × List pending_task)
  | [] => none
  | t :: rest =>
      match wait_and_take_next rest with
      | none => some (t, [])
      | some (m, rest') =>
          if t.target_time ≤ m.target_time then some (t, rest)
          else some (m, t :: rest')

/-- The sequence of tasks the single consumer observes when it drains the
queue: repeatedly take the next task until the queue is empty. -/
def drain_queue : Nat → List pending_task → List pending_task
  | 0, _ => []
  | fuel + 1, q =>
      match wait_and_take_next q with
      | none => []
      | some (t, rest) => t :: drain_queue fuel rest

/-- `post`/`post_delayed` append to the pending list in submission order,
stamping consecutive submission indices. -/
def submit_all : List Nat → Nat → List pending_task
  | [], _ => []
  | t :: ts, seq => ⟨t, seq⟩ :: submit_all ts (seq + 1)

def deliveries (times : List Nat) : List pending_task :=
  drain_queue (submit_all times 0).length (submit_all times 0)

lemma wait_and_take_next_none {q : List pending_task} :
    wait_and_take_next q = none → q = [] := by
  cases q with
  | nil => intro; rfl
  | cons t rest =>
      intro h
      simp only [wait_and_take_next] at h
      rcases hr : wait_and_take_next rest with _ | ⟨m, rest'⟩ <;>
        simp only [hr] at h
      · exact absurd h (by simp)
      · by_cases hle : t.target_time ≤ m.target_time <;> simp [hle] at h

lemma wait_and_take_next_spec :
    ∀ (q : List pending_task), q.Pairwise submitted_before →
    ∀ m rest, wait_and_take_next q = some (m, rest) →
      (∀ x ∈ rest, delivered_before m x) ∧
      (m :: rest).Perm q ∧ rest.Pairwise submitted_before := by
  intro q
  induction q with
  | nil => intro _ m rest h; exact absurd h (by simp [wait_and_take_next])
  | cons t rest0 ih =>
      intro hq m rest h
      simp only [wait_and_take_next] at h
      rw [List.pairwise_cons] at hq
      obtain ⟨hthead, htail⟩ := hq
      rcases hr : wait_and_take_next rest0 with _ | ⟨m0, rest0'⟩ <;>
        simp only [hr] at h
      · have h0 : rest0 = [] := wait_and_take_next_none hr
        subst h0
        simp only [Option.some.injEq, Prod.mk.injEq] at h
        rcases h with ⟨h1, h2⟩
        subst h1; subst h2
        exact ⟨by simp, List.Perm.refl _, List.Pairwise.nil⟩
      · rcases ih htail m0 rest0' hr with ⟨hmin0, hperm0, hpair0⟩
        by_cases hle : t.target_time ≤ m0.target_time
        · rw [if_pos hle] at h
          simp only [Option.some.injEq, Prod.mk.injEq] at h
          rcases h with ⟨h1, h2⟩
          subst h1; subst h2
          refine ⟨?_, List.Perm.refl _, htail⟩
          intro x hx
          have hx' : x ∈ m0 :: rest0' := hperm0.symm.subset hx
          have hseq : t.seq < x.seq := hthead x hx
          have hxt : m0.target_time ≤ x.target_time := by
            rcases List.mem_cons.mp hx' with h | h
            · subst h; exact le_rfl
            · rcases hmin0 x h with h' | h'
              · exact le_of_lt h'
              · exact le_of_eq h'.1
          rcases lt_or_eq_of_le (le_trans hle hxt) with h' | h'
          · exact Or.inl h'
          · exact Or.inr ⟨h', hseq⟩
        · rw [if_neg hle] at h
          simp only [Option.some.injEq, Prod.mk.injEq] at h
          rcases h with ⟨h1, h2⟩
          subst h1; subst h2
          have hm0t : m0.target_time < t.target_time := by omega
          refine ⟨?_, ?_, ?_⟩
          · intro x hx
            rcases List.mem_cons.mp hx with h | h
            · subst h; exact Or.inl hm0t
            · exact hmin0 x h
          · exact (List.Perm.swap t m0 rest0').trans (hperm0.cons t)
          · refine List.Pairwise.cons ?_ hpair0
            intro x hx
            have hx' : x ∈ rest0 := hperm0.subset (List.mem_cons_of_mem _ hx)
            exact hthead x hx'

lemma drain_queue_spec :
    ∀ (fuel : Nat) (q : List pending_task), q.length ≤ fuel →
      q.Pairwise submitted_before →
      (drain_queue fuel q).Perm q ∧
      (drain_queue fuel q).Pairwise delivered_before := by
  intro fuel
  induction fuel with
  | zero =>
      intro q hlen _
      have hq0 : q = [] := List.length_eq_zero.mp (by omega)
      subst hq0
      simp [drain_queue]
  | succ f ih =>
      intro q hlen hq
      rcases hr : wait_and_take_next q with _ | ⟨m, rest⟩
      · have h0 : q = [] := wait_and_take_next_none hr
        subst h0
        simp [drain_queue, wait_and_take_next]
      · obtain ⟨hmin, hperm, hpair⟩ := wait_and_take_next_spec q hq m rest hr
        have hlen' : rest.length ≤ f := by
          have hle := hperm.length_eq
          simp at hle
          omega
        obtain ⟨ihperm, ihpair⟩ := ih rest hlen' hpair
        have hd : drain_queue (f + 1) q = m :: drain_queue f rest := by
          simp only [drain_queue, hr]
        rw [hd]
        constructor
        · exact (ihperm.cons m).trans hperm
        · refine List.Pairwise.cons ?_ ihpair
          intro x hx
          exact hmin x (ihperm.subset hx)

lemma submit_all_mem_seq : ∀ (ts : List Nat) (s : Nat) (x : pending_task),
    x ∈ submit_all ts s → s ≤ x.seq := by
  intro ts
  induction ts with
  | nil => intro s x hx; simp [submit_all] at hx
  | cons t ts ih =>
      intro s x hx
      simp only [submit_all] at hx
      rcases List.mem_cons.mp hx with h | h
      · subst h; exact le_rfl
      · have := ih (s + 1) x h
        omega

lemma submit_all_pairwise : ∀ (ts : List Nat) (s : Nat),
    (submit_all ts s).Pairwise submitted_before := by
  intro ts
  induction ts with
  | nil => intro s; simp [submit_all]
  | cons t ts ih =>
      intro s
      simp only [submit_all]
      refine List.Pairwise.cons ?_ (ih (s + 1))
      intro x hx
      have := submit_all_mem_seq ts (s + 1) x hx
      show s < x.seq
      omega

/- ------------------------------------------------------------------ -/
/- Presentation loop.  The loop body and the commit-serialization against
   struct drmdev (modesetting.h lines 32-58, drmdev_atomic_req_commit at
   lines 116-120) are not under src/, so the state machine is modelled
   from spec 4.5: Idle → (frame task: issue commit) → CommitPending →
   (page-flip confirmation) → Idle; a frame-submission task taken while
   CommitPending is re-queued at "now", never dropped; every commit is
   issued from Idle only. -/

inductive loop_state where
  | Idle
  | CommitPending
deriving DecidableEq, Repr

/-- One unit of work taken from the integrated wait set: a
frame-submission task (tagged with a frame id), a hardware page-flip
completion event, or any other task kind (platform message, orientation
update, texture registration, generic callback). -/
inductive work_item where
  | frame (id : Nat)
  | hw_event
  | other
deriving DecidableEq, Repr

structure presentation_loop where
  st : loop_state
  queue : List work_item
  commits_issued : Nat
  flips_completed : Nat
  committed : List Nat
deriving DecidableEq, Repr

/-- Modelled from the spec: one iteration of the presentation loop
(spec 4.5).  Take the next unit of work; a frame task in Idle issues the
atomic commit and moves to CommitPending; a frame task in CommitPending is
re-queued at "now" (appended, since its target time is now); a hardware
completion event in CommitPending completes the flip and returns to Idle;
everything else is dispatched without touching presentation state. -/
def loop_step (s : presentation_loop) : presentation_loop :=
  match s.queue with
  | [] => s
  | w :: rest =>
      match w, s.st with
      | .frame id, .Idle =>
          { st := .CommitPending
            queue := rest
            commits_issued := s.commits_issued + 1
            flips_completed := s.flips_completed
            committed := s.committed ++ [id] }
      | .frame id, .CommitPending =>
          { s with queue := rest ++ [.frame id] }
      | .hw_event, .CommitPending =>
          { st := .Idle
            queue := rest
            commits_issued := s.commits_issued
            flips_completed := s.flips_completed + 1
            committed := s.committed }
      | .hw_event, .Idle => { s with queue := rest }
      | .other, _ => { s with queue := rest }

def loop_run : Nat → presentation_loop → presentation_loop
  | 0, s => s
  | n + 1, s => loop_run n (loop_step s)

def loop_init (q0 : List work_item) : presentation_loop :=
  { st := .Idle, queue := q0, commits_issued := 0, flips_completed := 0,
    committed := [] }

/-- The frame ids carried by the frame-submission tasks of a queue. -/
def frame_ids (q : List work_item) : List Nat :=
  q.filterMap fun w =>
    match w with
    | .frame id => some id
    | _ => none

/-- Commits in flight: issued and not yet confirmed by a page flip. -/
def in_flight (s : presentation_loop) : Nat :=
  s.commits_issued - s.flips_completed

/-- The inductive invariant of the presentation loop. -/
def loop_inv (q0 : List work_item) (s : presentation_loop) : Prop :=
  s.commits_issued =
      s.flips_completed + (if s.st = .CommitPending then 1 else 0) ∧
  (s.committed ++ frame_ids s.queue).Perm (frame_ids q0)

lemma frame_ids_append (q1 q2 : List work_item) :
    frame_ids (q1 ++ q2) = frame_ids q1 ++ frame_ids q2 :=
  List.filterMap_append q1 q2 _

lemma frame_ids_cons_frame (id : Nat) (rest : List work_item) :
    frame_ids (work_item.frame id :: rest) = id :: frame_ids rest := by
  simp [frame_ids, List.filterMap_cons]

lemma frame_ids_cons_hw (rest : List work_item) :
    frame_ids (work_item.hw_event :: rest) = frame_ids rest := by
  simp [frame_ids, List.filterMap_cons]

lemma frame_ids_cons_other (rest : List work_item) :
    frame_ids (work_item.other :: rest) = frame_ids rest := by
  simp [frame_ids, List.filterMap_cons]

lemma loop_step_inv (q0 : List work_item) (s : presentation_loop)
    (h : loop_inv q0 s) : loop_inv q0 (loop_step s) := by
  obtain ⟨hcount, hperm⟩ := h
  cases hq : s.queue with
  | nil =>
      have hs : loop_step s = s := by simp [loop_step, hq]
      rw [hs]
      exact ⟨hcount, hperm⟩
  | cons w rest =>
      rw [hq] at hperm
      cases w with
      | frame id =>
          cases hst : s.st with
          | Idle =>
              rw [hst] at hcount
              simp at hcount
              have hs : loop_step s =
                  { st := .CommitPending
                    queue := rest
                    commits_issued := s.commits_issued + 1
                    flips_completed := s.flips_completed
                    committed := s.committed ++ [id] } := by
                simp [loop_step, hq, hst]
              rw [hs]
              constructor
              · simp
                omega
              · rw [frame_ids_cons_frame] at hperm
                simpa [List.append_assoc] using hperm
          | CommitPending =>
              have hs : loop_step s =
                  { s with queue := rest ++ [work_item.frame id] } := by
                simp [loop_step, hq, hst]
              rw [hs]
              constructor
              · simpa [hst] using hcount
              · simp only [frame_ids_append, frame_ids_cons_frame]
                rw [frame_ids_cons_frame] at hperm
                refine List.Perm.trans
                  (List.Perm.append_left s.committed ?_) hperm
                show (frame_ids rest ++ [id]).Perm (id :: frame_ids rest)
                exact List.perm_append_singleton id (frame_ids rest)
      | hw_event =>
          cases hst : s.st with
          | Idle =>
              have hs : loop_step s = { s with queue := rest } := by
                simp [loop_step, hq, hst]
              rw [hs]
              rw [frame_ids_cons_hw] at hperm
              exact ⟨hcount, hperm⟩
          | CommitPending =>
              rw [hst] at hcount
              simp at hcount
              have hs : loop_step s =
                  { st := .Idle
                    queue := rest
                    commits_issued := s.commits_issued
                    flips_completed := s.flips_completed + 1
                    committed := s.committed } := by
                simp [loop_step, hq, hst]
              rw [hs]
              constructor
              · simp
                omega
              · rw [frame_ids_cons_hw] at hperm
                exact hperm
      | other =>
          cases hst : s.st with
          | Idle =>
              have hs : loop_step s = { s with queue := rest } := by
                simp [loop_step, hq, hst]
              rw [hs]
              rw [frame_ids_cons_other] at hperm
              exact ⟨hcount, hperm⟩
          | CommitPending =>
              have hs : loop_step s = { s with queue := rest } := by
                simp [loop_step, hq, hst]
              rw [hs]
              rw [frame_ids_cons_other] at hperm
              exact ⟨hcount, hperm⟩

lemma loop_run_inv (q0 : List work_item) :
    ∀ n s, loop_inv q0 s → loop_inv q0 (loop_run n s) := by
  intro n
  induction n with
  | zero => intro s h; exact h
  | succ m ih => intro s h; exact ih (loop_step s) (loop_step_inv q0 s h)

/- ------------------------------------------------------------------ -/
/- Page-flip lifecycle.  struct pageflip_data is embedded from
   include/flutter-pi.h lines 99-102; the commit-issue path and the
   page-flip completion handler are not under src/, so the lifecycle is
   modelled from spec 4.3/4.5: to show buffer B while buffer A is
   displayed, a pending-flip record referencing A and the caller's baton
   is created when the commit is accepted by the kernel; no commit is
   issued while one is in flight, and the renderer never re-submits the
   currently-displayed buffer (the two-buffer handoff); only upon the
   kernel's asynchronous flip confirmation is A marked releasable, at
   which instant B becomes the displayed buffer. -/

structure pageflip_data where
  releaseable_bo : Nat
  next_baton : Int
deriving DecidableEq, Repr

inductive flip_input where
  | commit (bo : Nat) (baton : Int)
  | flip_done
deriving DecidableEq, Repr

/-- The machine state plus two instrumentation logs: accepted commits as
(displaced buffer, incoming buffer) pairs in acceptance order, and
releasable markings as (marked buffer, buffer displayed at the marking
instant) pairs in marking order. -/
structure pageflip_machine where
  current_bo : Nat
  pending : Option (pageflip_data × Nat)
  commits_accepted : List (Nat × Nat)
  marked_releasable : List (Nat × Nat)
deriving DecidableEq, Repr

/-- Modelled from the spec: one transition of the page-flip lifecycle
(spec 4.3/4.5). -/
def flip_step (s : pageflip_machine) : flip_input → pageflip_machine
  | .commit bo baton =>
      match s.pending with
      | some _ => s
      | none =>
          if bo = s.current_bo then s
          else
            { s with
              pending := some (⟨s.current_bo, baton⟩, bo)
              commits_accepted := s.commits_accepted ++ [(s.current_bo, bo)] }
  | .flip_done =>
      match s.pending with
      | none => s
      | some (pd, newbo) =>
          { current_bo := newbo
            pending := none
            commits_accepted := s.commits_accepted
            marked_releasable :=
              s.marked_releasable ++ [(pd.releaseable_bo, newbo)] }

def flip_run : pageflip_machine → List flip_input → pageflip_machine
  | s, [] => s
  | s, ev :: evs => flip_run (flip_step s ev) evs

def flip_init (c0 : Nat) : pageflip_machine :=
  { current_bo := c0, pending := none, commits_accepted := [],
    marked_releasable := [] }

/-- The pending-flip record viewed as the (displaced, incoming) pair it
will contribute to the release log once the kernel confirms the flip. -/
def pending_entries (s : pageflip_machine) : List (Nat × Nat) :=
  match s.pending with
  | none => []
  | some (pd, newbo) => [(pd.releaseable_bo, newbo)]

/-- The inductive invariant of the page-flip lifecycle: the pending
record (if any) references exactly the displayed buffer and an incoming
buffer different from it; the accepted-commit log is the marking log
followed by the pending record; no marking ever named the buffer
displayed at its instant. -/
def flip_inv (s : pageflip_machine) : Prop :=
  (∀ pd newbo, s.pending = some (pd, newbo) →
      pd.releaseable_bo = s.current_bo ∧ newbo ≠ s.current_bo) ∧
  s.commits_accepted = s.marked_releasable ++ pending_entries s ∧
  (∀ p ∈ s.marked_releasable, p.1 ≠ p.2)

lemma flip_step_inv (s : pageflip_machine) (ev : flip_input)
    (h : flip_inv s) : flip_inv (flip_step s ev) := by
  obtain ⟨hpend, hlog, hmark⟩ := h
  cases ev with
  | commit bo baton =>
      cases hp : s.pending with
      | some pr =>
          have hs : flip_step s (.commit bo baton) = s := by
            simp [flip_step, hp]
          rw [hs]; exact ⟨hpend, hlog, hmark⟩
      | none =>
          by_cases hbo : bo = s.current_bo
          · have hs : flip_step s (.commit bo baton) = s := by
              simp [flip_step, hp, hbo]
            rw [hs]; exact ⟨hpend, hlog, hmark⟩
          · have hs : flip_step s (.commit bo baton) =
                { s with
                  pending := some (⟨s.current_bo, baton⟩, bo)
                  commits_accepted :=
                    s.commits_accepted ++ [(s.current_bo, bo)] } := by
              simp [flip_step, hp, hbo]
            rw [hs]
            rw [pending_entries, hp] at hlog
            simp only [List.append_nil] at hlog
            refine ⟨?_, ?_, hmark⟩
            · intro pd newbo hpn
              simp only [Option.some.injEq, Prod.mk.injEq] at hpn
              obtain ⟨h1, h2⟩ := hpn
              subst h1; subst h2
              exact ⟨rfl, hbo⟩
            · simp only [pending_entries]
              rw [hlog]
  | flip_done =>
      cases hp : s.pending with
      | none =>
          have hs : flip_step s .flip_done = s := by
            simp [flip_step, hp]
          rw [hs]; exact ⟨hpend, hlog, hmark⟩
      | some pr =>
          obtain ⟨pd, newbo⟩ := pr
          obtain ⟨hrel, hne⟩ := hpend pd newbo hp
          have hs : flip_step s .flip_done =
              { current_bo := newbo
                pending := none
                commits_accepted := s.commits_accepted
                marked_releasable :=
                  s.marked_releasable ++ [(pd.releaseable_bo, newbo)] } := by
            simp [flip_step, hp]
          rw [hs]
          rw [pending_entries, hp] at hlog
          refine ⟨?_, ?_, ?_⟩
          · intro pd' newbo' h'
            exact absurd h' (by simp)
          · simp only [pending_entries, List.append_nil]
            exact hlog
          · intro p hp'
            rcases List.mem_append.mp hp' with h | h
            · exact hmark p h
            · simp only [List.mem_singleton] at h
              subst h
              intro heq
              simp only at heq
              rw [hrel] at heq
              exact hne heq.symm

lemma flip_run_inv : ∀ (evs : List flip_input) (s : pageflip_machine),
    flip_inv s → flip_inv (flip_run s evs) := by
  intro evs
  induction evs with
  | nil => intro s h; exact h
  | cons ev evs ih =>
      intro s h
      exact ih (flip_step s ev) (flip_step_inv s ev h)

/- ------------------------------------------------------------------ -/
/- Multitouch tracking.  struct mousepointer_mtslot is embedded from
   include/flutter-pi.h lines 107-113 (a slot holds the kernel tracking
   id, `none` when unused) and the pointer phases from the
   POINTER_PHASE_AS_STRING macro at lines 211-218.  The evdev processing
   loop is not under src/, so the slot protocol is modelled from spec
   4.6: a new tracking id on a free slot emits add then down (hover for a
   hover-capable device); movement of an active contact emits move;
   contact loss (tracking id recycled to "none") emits up then remove and
   only then frees the slot; a tracking id arriving on a still-occupied
   slot finishes the previous contact (up, remove) before starting the
   new one (add, down/hover).  Events addressing slots outside the
   device's slot table are ignored. -/

inductive pointer_phase where
  | kCancel
  | kUp
  | kDown
  | kMove
  | kAdd
  | kRemove
  | kHover
deriving DecidableEq, Repr

/-- Kernel-side multitouch input, reduced to what the claim observes:
ABS_MT_TRACKING_ID updates (`some id` = contact appears / is handed over,
`none` = contact lost) and position updates on a slot. -/
inductive touch_event where
  | tracking (slot : Nat) (id : Option Nat)
  | motion (slot : Nat)
deriving DecidableEq, Repr

/-- The per-device slot table (mousepointer_mtslot.id per slot, `none`
for an unused slot) plus the log of emitted pointer events as
(slot, tracking id, phase) triples in emission order. -/
structure touch_state where
  slots : List (Option Nat)
  log : List (Nat × Nat × pointer_phase)
deriving DecidableEq, Repr

def emit_for (slot id : Nat) (phases : List pointer_phase) :
    List (Nat × Nat × pointer_phase) :=
  phases.map fun p => (slot, id, p)

/-- The phase right after add: hover for a hover-capable device reporting
proximity without contact, down otherwise. -/
def down_or_hover (hover : Bool) : pointer_phase :=
  if hover then .kHover else .kDown

def begin_phases (hover : Bool) : List pointer_phase :=
  [.kAdd, down_or_hover hover]

def end_phases : List pointer_phase := [.kUp, .kRemove]

/-- Modelled from the spec: one step of the multitouch slot protocol
(spec 4.6). -/
def touch_step (hover : Bool) (s : touch_state) : touch_event → touch_state
  | .tracking slot (some newid) =>
      match s.slots[slot]? with
      | some none =>
          { slots := s.slots.set slot (some newid)
            log := s.log ++ emit_for slot newid (begin_phases hover) }
      | some (some oldid) =>
          { slots := s.slots.set slot (some newid)
            log := s.log ++ emit_for slot oldid end_phases ++
              emit_for slot newid (begin_phases hover) }
      | none => s
  | .tracking slot none =>
      match s.slots[slot]? with
      | some (some oldid) =>
          { slots := s.slots.set slot none
            log := s.log ++ emit_for slot oldid end_phases }
      | _ => s
  | .motion slot =>
      match s.slots[slot]? with
      | some (some id) =>
          { s with log := s.log ++ emit_for slot id [.kMove] }
      | _ => s

def touch_run (hover : Bool) : touch_state → List touch_event → touch_state
  | s, [] => s
  | s, ev :: evs => touch_run hover (touch_step hover s ev) evs

def touch_init (n : Nat) : touch_state :=
  { slots := List.replicate n none, log := [] }

/-- The log restricted to one slot, as (tracking id, phase) pairs. -/
def slot_log (sl : Nat) (log : List (Nat × Nat × pointer_phase)) :
    List (Nat × pointer_phase) :=
  log.filterMap fun e => if e.1 = sl then some e.2 else none

/-- The phases emitted for one tracking id, in emission order. -/
def phases_of (id : Nat) (log : List (Nat × Nat × pointer_phase)) :
    List pointer_phase :=
  log.filterMap fun e => if e.2.1 = id then some e.2.2 else none

/-- Every tracking id occurring in the log (with repetition). -/
def log_ids (log : List (Nat × Nat × pointer_phase)) : List Nat :=
  log.map fun e => e.2.1

/-- The tracking ids started by a sequence of kernel events. -/
def started_ids : List touch_event → List Nat :=
  List.filterMap fun e =>
    match e with
    | .tracking _ (some id) => some id
    | _ => none

/-- The slot-restricted log of one still-open contact: add, down (or
hover), then k moves. -/
def open_block (id : Nat) (dh : pointer_phase) (k : Nat) :
    List (Nat × pointer_phase) :=
  (id, .kAdd) :: (id, dh) :: List.replicate k (id, .kMove)

/-- The slot-restricted log of one completed contact. -/
def closed_block (id : Nat) (dh : pointer_phase) (k : Nat) :
    List (Nat × pointer_phase) :=
  open_block id dh k ++ [(id, .kUp), (id, .kRemove)]

/-- A concatenation of completed contact blocks: each slot reuse happens
only after the previous contact's remove. -/
inductive closed_blocks : List (Nat × pointer_phase) → Prop
  | nil : closed_blocks []
  | cons (id : Nat) (dh : pointer_phase) (k : Nat)
      (rest : List (Nat × pointer_phase)) :
      (dh = .kHover ∨ dh = .kDown) → closed_blocks rest →
      closed_blocks (closed_block id dh k ++ rest)

/-- Phase sequence of a still-open contact. -/
def open_phase_seq (l : List pointer_phase) : Prop :=
  ∃ dh k, (dh = pointer_phase.kHover ∨ dh = pointer_phase.kDown) ∧
    l = pointer_phase.kAdd :: dh :: List.replicate k pointer_phase.kMove

/-- Phase sequence of a completed contact: add, then hover or down, then
zero or more moves, then up, then remove. -/
def closed_phase_seq (l : List pointer_phase) : Prop :=
  ∃ dh k, (dh = pointer_phase.kHover ∨ dh = pointer_phase.kDown) ∧
    l = pointer_phase.kAdd :: dh ::
      (List.replicate k pointer_phase.kMove ++
        [pointer_phase.kUp, pointer_phase.kRemove])

lemma closed_blocks_append {p q : List (Nat × pointer_phase)}
    (hp : closed_blocks p) (hq : closed_blocks q) :
    closed_blocks (p ++ q) := by
  induction hp with
  | nil => simpa using hq
  | cons id dh k rest hdh _ ih =>
      rw [List.append_assoc]
      exact closed_blocks.cons id dh k _ hdh ih

lemma closed_blocks_single (id : Nat) (dh : pointer_phase) (k : Nat)
    (hdh : dh = pointer_phase.kHover ∨ dh = pointer_phase.kDown) :
    closed_blocks (closed_block id dh k) := by
  have h := closed_blocks.cons id dh k [] hdh closed_blocks.nil
  simpa using h

lemma slot_log_append (sl : Nat) (l1 l2 : List (Nat × Nat × pointer_phase)) :
    slot_log sl (l1 ++ l2) = slot_log sl l1 ++ slot_log sl l2 :=
  List.filterMap_append l1 l2 _

lemma phases_of_append (id : Nat) (l1 l2 : List (Nat × Nat × pointer_phase)) :
    phases_of id (l1 ++ l2) = phases_of id l1 ++ phases_of id l2 :=
  List.filterMap_append l1 l2 _

lemma log_ids_append (l1 l2 : List (Nat × Nat × pointer_phase)) :
    log_ids (l1 ++ l2) = log_ids l1 ++ log_ids l2 :=
  List.map_append _ l1 l2

lemma slot_log_emit_self (sl id : Nat) (ph : List pointer_phase) :
    slot_log sl (emit_for sl id ph) = ph.map fun p => (id, p) := by
  induction ph with
  | nil => rfl
  | cons p ph ih =>
      simp only [emit_for, List.map_cons] at ih ⊢
      simp only [slot_log, List.filterMap_cons] at ih ⊢
      simpa using ih

lemma slot_log_emit_other (sl sl' id : Nat) (ph : List pointer_phase)
    (h : sl' ≠ sl) : slot_log sl' (emit_for sl id ph) = [] := by
  induction ph with
  | nil => rfl
  | cons p ph ih =>
      simp only [emit_for, List.map_cons] at ih ⊢
      simp only [slot_log, List.filterMap_cons] at ih ⊢
      simp [Ne.symm h, ih]

lemma phases_of_emit_self (sl id : Nat) (ph : List pointer_phase) :
    phases_of id (emit_for sl id ph) = ph := by
  induction ph with
  | nil => rfl
  | cons p ph ih =>
      simp only [emit_for, List.map_cons] at ih ⊢
      simp only [phases_of, List.filterMap_cons] at ih ⊢
      simpa using ih

lemma phases_of_emit_other (id' sl id : Nat) (ph : List pointer_phase)
    (h : id' ≠ id) : phases_of id' (emit_for sl id ph) = [] := by
  induction ph with
  | nil => rfl
  | cons p ph ih =>
      simp only [emit_for, List.map_cons] at ih ⊢
      simp only [phases_of, List.filterMap_cons] at ih ⊢
      simp [Ne.symm h, ih]

lemma log_ids_emit (sl id : Nat) (ph : List pointer_phase) :
    log_ids (emit_for sl id ph) = List.replicate ph.length id := by
  induction ph with
  | nil => rfl
  | cons p ph ih =>
      simp only [emit_for, List.map_cons] at ih ⊢
      simp only [log_ids, List.map_cons, List.length_cons,
        List.replicate_succ] at ih ⊢
      simpa using ih

lemma phases_of_eq_nil_of_not_mem (id : Nat)
    (l : List (Nat × Nat × pointer_phase)) (h : id ∉ log_ids l) :
    phases_of id l = [] := by
  induction l with
  | nil => rfl
  | cons e l ih =>
      rw [log_ids, List.map_cons, List.mem_cons] at h
      push_neg at h
      obtain ⟨h1, h2⟩ := h
      rw [phases_of, List.filterMap_cons]
      have : ¬ (e.2.1 = id) := fun hc => h1 hc.symm
      simp only [this, if_false]
      exact ih h2

lemma down_or_hover_cases (hover : Bool) :
    down_or_hover hover = pointer_phase.kHover ∨
      down_or_hover hover = pointer_phase.kDown := by
  cases hover <;> simp [down_or_hover]

lemma open_block_snoc (id : Nat) (dh : pointer_phase) (k : Nat) :
    open_block id dh k ++ [(id, pointer_phase.kMove)] =
      open_block id dh (k + 1) := by
  simp [open_block, List.replicate_succ']

lemma slot_log_eq_nil (sl : Nat) (log : List (Nat × Nat × pointer_phase))
    (h : ∀ e ∈ log, e.1 ≠ sl) : slot_log sl log = [] := by
  induction log with
  | nil => rfl
  | cons e l ih =>
      have hne := h e (List.mem_cons_self e l)
      simp only [slot_log, List.filterMap_cons, hne, if_false]
      exact ih fun e' he' => h e' (List.mem_cons_of_mem e he')

lemma started_ids_cons (ev : touch_event) (evs : List touch_event) :
    started_ids (ev :: evs) = started_ids [ev] ++ started_ids evs := by
  cases ev with
  | tracking slot oid =>
      cases oid <;> simp [started_ids, List.filterMap_cons]
  | motion slot => simp [started_ids, List.filterMap_cons]

/-- The inductive invariant of the multitouch machine: (1) an occupied
slot's restricted log is completed blocks followed by the open block of
the current contact, whose per-id phases are add, down/hover, then
moves; (2) a free slot's restricted log is completed blocks only; (3)
every id's phase sequence is empty, open, or closed; (4) every active id
has already been logged; (5) the log names only valid slots. -/
def touch_inv (s : touch_state) : Prop :=
  (∀ (sl id : Nat), s.slots[sl]? = some (some id) →
      ∃ p dh k, (dh = pointer_phase.kHover ∨ dh = pointer_phase.kDown) ∧
        closed_blocks p ∧
        slot_log sl s.log = p ++ open_block id dh k ∧
        phases_of id s.log =
          pointer_phase.kAdd :: dh :: List.replicate k pointer_phase.kMove) ∧
  (∀ (sl : Nat), s.slots[sl]? = some none →
      closed_blocks (slot_log sl s.log)) ∧
  (∀ (id : Nat), phases_of id s.log = [] ∨
      open_phase_seq (phases_of id s.log) ∨
      closed_phase_seq (phases_of id s.log)) ∧
  (∀ (sl id : Nat), s.slots[sl]? = some (some id) → id ∈ log_ids s.log) ∧
  (∀ e ∈ s.log, e.1 < s.slots.length) ∧
  (∀ (sl1 sl2 id : Nat), s.slots[sl1]? = some (some id) →
      s.slots[sl2]? = some (some id) → sl1 = sl2)

lemma touch_step_inv (hover : Bool) (s : touch_state) (ev : touch_event)
    (hI : touch_inv s)
    (hfresh : ∀ slot newid, ev = touch_event.tracking slot (some newid) →
        newid ∉ log_ids s.log) :
    touch_inv (touch_step hover s ev) ∧
    ∀ x ∈ log_ids (touch_step hover s ev).log,
      x ∈ log_ids s.log ∨ x ∈ started_ids [ev] := by
  obtain ⟨hI1, hI2, hI3, hI4, hI5, hI6⟩ := hI
  cases ev with
  | tracking slot oid =>
      cases oid with
      | some newid =>
          have hnew : newid ∉ log_ids s.log := hfresh slot newid rfl
          cases hcur : s.slots[slot]? with
          | none =>
              have hs : touch_step hover s
                  (.tracking slot (some newid)) = s := by
                simp [touch_step, hcur]
              rw [hs]
              exact ⟨⟨hI1, hI2, hI3, hI4, hI5, hI6⟩, fun x hx => Or.inl hx⟩
          | some cur =>
              have hlt : slot < s.slots.length := by
                rcases List.getElem?_eq_some.mp hcur with ⟨h, _⟩
                exact h
              cases cur with
              | none =>
                  have hs : touch_step hover s (.tracking slot (some newid)) =
                      ⟨s.slots.set slot (some newid),
                        s.log ++ emit_for slot newid (begin_phases hover)⟩ := by
                    simp [touch_step, hcur]
                  rw [hs]
                  refine ⟨⟨?_, ?_, ?_, ?_, ?_, ?_⟩, ?_⟩
                  · intro sl id hsl
                    by_cases hss : sl = slot
                    · subst hss
                      rw [List.getElem?_set_eq_of_lt _ hlt] at hsl
                      simp only [Option.some.injEq] at hsl
                      subst hsl
                      refine ⟨slot_log sl s.log, down_or_hover hover, 0,
                        down_or_hover_cases hover, hI2 sl hcur, ?_, ?_⟩
                      · rw [slot_log_append, slot_log_emit_self]
                        rfl
                      · rw [phases_of_append, phases_of_emit_self,
                          phases_of_eq_nil_of_not_mem newid s.log hnew]
                        rfl
                    · rw [List.getElem?_set_ne
                          (fun hc => hss hc.symm)] at hsl
                      obtain ⟨p, dh0, k0, hdh0, hcb, hsllog, hph⟩ :=
                        hI1 sl id hsl
                      have hidne : id ≠ newid :=
                        fun hc => hnew (hc ▸ hI4 sl id hsl)
                      refine ⟨p, dh0, k0, hdh0, hcb, ?_, ?_⟩
                      · rw [slot_log_append,
                          slot_log_emit_other _ _ _ _ hss,
                          List.append_nil, hsllog]
                      · rw [phases_of_append,
                          phases_of_emit_other _ _ _ _ hidne,
                          List.append_nil, hph]
                  · intro sl hsl
                    by_cases hss : sl = slot
                    · subst hss
                      rw [List.getElem?_set_eq_of_lt _ hlt] at hsl
                      simp at hsl
                    · rw [List.getElem?_set_ne
                          (fun hc => hss hc.symm)] at hsl
                      rw [slot_log_append,
                        slot_log_emit_other _ _ _ _ hss, List.append_nil]
                      exact hI2 sl hsl
                  · intro id'
                    by_cases hid : id' = newid
                    · subst hid
                      rw [phases_of_append, phases_of_emit_self,
                        phases_of_eq_nil_of_not_mem id' s.log hnew]
                      right; left
                      exact ⟨down_or_hover hover, 0,
                        down_or_hover_cases hover, rfl⟩
                    · rw [phases_of_append,
                        phases_of_emit_other _ _ _ _ hid, List.append_nil]
                      exact hI3 id'
                  · intro sl id hsl
                    rw [log_ids_append, List.mem_append]
                    by_cases hss : sl = slot
                    · subst hss
                      rw [List.getElem?_set_eq_of_lt _ hlt] at hsl
                      simp only [Option.some.injEq] at hsl
                      subst hsl
                      right
                      rw [log_ids_emit]
                      simp [begin_phases]
                    · rw [List.getElem?_set_ne
                          (fun hc => hss hc.symm)] at hsl
                      exact Or.inl (hI4 sl id hsl)
                  · intro e he
                    rw [List.mem_append] at he
                    simp only [List.length_set]
                    rcases he with h | h
                    · exact hI5 e h
                    · simp only [emit_for, List.mem_map] at h
                      obtain ⟨q, _, hq⟩ := h
                      rw [← hq]
                      exact hlt
                  · intro sl1 sl2 id h1 h2
                    by_cases h1s : sl1 = slot
                    · by_cases h2s : sl2 = slot
                      · rw [h1s, h2s]
                      · subst h1s
                        rw [List.getElem?_set_eq_of_lt _ hlt] at h1
                        simp only [Option.some.injEq] at h1
                        rw [List.getElem?_set_ne
                          (fun hc => h2s hc.symm)] at h2
                        subst h1
                        exact absurd (hI4 sl2 newid h2) hnew
                    · by_cases h2s : sl2 = slot
                      · subst h2s
                        rw [List.getElem?_set_eq_of_lt _ hlt] at h2
                        simp only [Option.some.injEq] at h2
                        rw [List.getElem?_set_ne
                          (fun hc => h1s hc.symm)] at h1
                        subst h2
                        exact absurd (hI4 sl1 newid h1) hnew
                      · rw [List.getElem?_set_ne
                          (fun hc => h1s hc.symm)] at h1
                        rw [List.getElem?_set_ne
                          (fun hc => h2s hc.symm)] at h2
                        exact hI6 sl1 sl2 id h1 h2
                  · intro x hx
                    rw [log_ids_append, List.mem_append] at hx
                    rcases hx with h | h
                    · exact Or.inl h
                    · right
                      rw [log_ids_emit] at h
                      have hx' := List.eq_of_mem_replicate h
                      subst hx'
                      simp [started_ids]
              | some oldid =>
                  have hold : oldid ∈ log_ids s.log := hI4 slot oldid hcur
                  have holdne : oldid ≠ newid := fun hc => hnew (hc ▸ hold)
                  obtain ⟨p, dh0, k0, hdh0, hcb, hsllog, hph⟩ :=
                    hI1 slot oldid hcur
                  have hs : touch_step hover s (.tracking slot (some newid)) =
                      ⟨s.slots.set slot (some newid),
                        s.log ++ emit_for slot oldid end_phases ++
                          emit_for slot newid (begin_phases hover)⟩ := by
                    simp [touch_step, hcur]
                  rw [hs]
                  refine ⟨⟨?_, ?_, ?_, ?_, ?_, ?_⟩, ?_⟩
                  · intro sl id hsl
                    by_cases hss : sl = slot
                    · subst hss
                      rw [List.getElem?_set_eq_of_lt _ hlt] at hsl
                      simp only [Option.some.injEq] at hsl
                      subst hsl
                      refine ⟨p ++ closed_block oldid dh0 k0,
                        down_or_hover hover, 0, down_or_hover_cases hover,
                        closed_blocks_append hcb
                          (closed_blocks_single oldid dh0 k0 hdh0), ?_, ?_⟩
                      · rw [slot_log_append, slot_log_append, hsllog,
                          slot_log_emit_self, slot_log_emit_self]
                        simp [closed_block, List.append_assoc]
                        rfl
                      · rw [phases_of_append, phases_of_append,
                          phases_of_emit_other _ _ _ _ (Ne.symm holdne),
                          phases_of_emit_self,
                          phases_of_eq_nil_of_not_mem newid s.log hnew]
                        rfl
                    · rw [List.getElem?_set_ne
                          (fun hc => hss hc.symm)] at hsl
                      obtain ⟨p', dh', k', hdh', hcb', hsllog', hph'⟩ :=
                        hI1 sl id hsl
                      have hidnew : id ≠ newid :=
                        fun hc => hnew (hc ▸ hI4 sl id hsl)
                      have hidold : id ≠ oldid :=
                        fun hc => hss (hI6 sl slot id hsl (hc.symm ▸ hcur))
                      exact ⟨p', dh', k', hdh', hcb', by
                        rw [slot_log_append, slot_log_append,
                          slot_log_emit_other _ _ _ _ hss,
                          slot_log_emit_other _ _ _ _ hss,
                          List.append_nil, List.append_nil, hsllog'], by
                        rw [phases_of_append, phases_of_append,
                          phases_of_emit_other _ _ _ _ hidold,
                          phases_of_emit_other _ _ _ _ hidnew,
                          List.append_nil, List.append_nil, hph']⟩
                  · intro sl hsl
                    by_cases hss : sl = slot
                    · subst hss
                      rw [List.getElem?_set_eq_of_lt _ hlt] at hsl
                      simp at hsl
                    · rw [List.getElem?_set_ne
                          (fun hc => hss hc.symm)] at hsl
                      rw [slot_log_append, slot_log_append,
                        slot_log_emit_other _ _ _ _ hss,
                        slot_log_emit_other _ _ _ _ hss,
                        List.append_nil, List.append_nil]
                      exact hI2 sl hsl
                  · intro id'
                    by_cases hid : id' = newid
                    · subst hid
                      rw [phases_of_append, phases_of_append,
                        phases_of_emit_other _ _ _ _ (Ne.symm holdne),
                        phases_of_emit_self,
                        phases_of_eq_nil_of_not_mem id' s.log hnew]
                      right; left
                      exact ⟨down_or_hover hover, 0,
                        down_or_hover_cases hover, rfl⟩
                    · by_cases hid2 : id' = oldid
                      · subst hid2
                        rw [phases_of_append, phases_of_append,
                          phases_of_emit_self,
                          phases_of_emit_other _ _ _ _ hid,
                          List.append_nil, hph]
                        right; right
                        refine ⟨dh0, k0, hdh0, ?_⟩
                        simp [end_phases]
                      · rw [phases_of_append, phases_of_append,
                          phases_of_emit_other _ _ _ _ hid2,
                          phases_of_emit_other _ _ _ _ hid,
                          List.append_nil, List.append_nil]
                        exact hI3 id'
                  · intro sl id hsl
                    rw [log_ids_append, log_ids_append, List.mem_append,
                      List.mem_append]
                    by_cases hss : sl = slot
                    · subst hss
                      rw [List.getElem?_set_eq_of_lt _ hlt] at hsl
                      simp only [Option.some.injEq] at hsl
                      subst hsl
                      right
                      rw [log_ids_emit]
                      simp [begin_phases]
                    · rw [List.getElem?_set_ne
                          (fun hc => hss hc.symm)] at hsl
                      exact Or.inl (Or.inl (hI4 sl id hsl))
                  · intro e he
                    rw [List.mem_append, List.mem_append] at he
                    simp only [List.length_set]
                    rcases he with (h | h) | h
                    · exact hI5 e h
                    · simp only [emit_for, List.mem_map] at h
                      obtain ⟨q, _, hq⟩ := h
                      rw [← hq]
                      exact hlt
                    · simp only [emit_for, List.mem_map] at h
                      obtain ⟨q, _, hq⟩ := h
                      rw [← hq]
                      exact hlt
                  · intro sl1 sl2 id h1 h2
                    by_cases h1s : sl1 = slot
                    · by_cases h2s : sl2 = slot
                      · rw [h1s, h2s]
                      · subst h1s
                        rw [List.getElem?_set_eq_of_lt _ hlt] at h1
                        simp only [Option.some.injEq] at h1
                        rw [List.getElem?_set_ne
                          (fun hc => h2s hc.symm)] at h2
                        subst h1
                        exact absurd (hI4 sl2 newid h2) hnew
                    · by_cases h2s : sl2 = slot
                      · subst h2s
                        rw [List.getElem?_set_eq_of_lt _ hlt] at h2
                        simp only [Option.some.injEq] at h2
                        rw [List.getElem?_set_ne
                          (fun hc => h1s hc.symm)] at h1
                        subst h2
                        exact absurd (hI4 sl1 newid h1) hnew
                      · rw [List.getElem?_set_ne
                          (fun hc => h1s hc.symm)] at h1
                        rw [List.getElem?_set_ne
                          (fun hc => h2s hc.symm)] at h2
                        exact hI6 sl1 sl2 id h1 h2
                  · intro x hx
                    rw [log_ids_append, log_ids_append, List.mem_append,
                      List.mem_append] at hx
                    rcases hx with (h | h) | h
                    · exact Or.inl h
                    · rw [log_ids_emit] at h
                      have hx' := List.eq_of_mem_replicate h
                      subst hx'
                      exact Or.inl hold
                    · rw [log_ids_emit] at h
                      have hx' := List.eq_of_mem_replicate h
                      subst hx'
                      right
                      simp [started_ids]
      | none =>
          cases hcur : s.slots[slot]? with
          | none =>
              have hs : touch_step hover s (.tracking slot none) = s := by
                simp [touch_step, hcur]
              rw [hs]
              exact ⟨⟨hI1, hI2, hI3, hI4, hI5, hI6⟩, fun x hx => Or.inl hx⟩
          | some cur =>
              cases cur with
              | none =>
                  have hs : touch_step hover s (.tracking slot none) = s := by
                    simp [touch_step, hcur]
                  rw [hs]
                  exact ⟨⟨hI1, hI2, hI3, hI4, hI5, hI6⟩, fun x hx => Or.inl hx⟩
              | some oldid =>
                  have hlt : slot < s.slots.length := by
                    rcases List.getElem?_eq_some.mp hcur with ⟨h, _⟩
                    exact h
                  obtain ⟨p, dh0, k0, hdh0, hcb, hsllog, hph⟩ :=
                    hI1 slot oldid hcur
                  have hs : touch_step hover s (.tracking slot none) =
                      ⟨s.slots.set slot none,
                        s.log ++ emit_for slot oldid end_phases⟩ := by
                    simp [touch_step, hcur]
                  rw [hs]
                  refine ⟨⟨?_, ?_, ?_, ?_, ?_, ?_⟩, ?_⟩
                  · intro sl id hsl
                    by_cases hss : sl = slot
                    · subst hss
                      rw [List.getElem?_set_eq_of_lt _ hlt] at hsl
                      simp at hsl
                    · rw [List.getElem?_set_ne
                          (fun hc => hss hc.symm)] at hsl
                      obtain ⟨p', dh', k', hdh', hcb', hsllog', hph'⟩ :=
                        hI1 sl id hsl
                      have hidold : id ≠ oldid :=
                        fun hc => hss (hI6 sl slot id hsl (hc.symm ▸ hcur))
                      exact ⟨p', dh', k', hdh', hcb', by
                        rw [slot_log_append,
                          slot_log_emit_other _ _ _ _ hss,
                          List.append_nil, hsllog'], by
                        rw [phases_of_append,
                          phases_of_emit_other _ _ _ _ hidold,
                          List.append_nil, hph']⟩
                  · intro sl hsl
                    by_cases hss : sl = slot
                    · subst hss
                      rw [slot_log_append, hsllog, slot_log_emit_self]
                      have : (end_phases.map fun q => ((oldid : Nat), q)) =
                          [(oldid, pointer_phase.kUp),
                            (oldid, pointer_phase.kRemove)] := rfl
                      rw [this, List.append_assoc]
                      exact closed_blocks_append hcb
                        (closed_blocks_single oldid dh0 k0 hdh0)
                    · rw [List.getElem?_set_ne
                          (fun hc => hss hc.symm)] at hsl
                      rw [slot_log_append,
                        slot_log_emit_other _ _ _ _ hss, List.append_nil]
                      exact hI2 sl hsl
                  · intro id'
                    by_cases hid : id' = oldid
                    · subst hid
                      rw [phases_of_append, phases_of_emit_self, hph]
                      right; right
                      refine ⟨dh0, k0, hdh0, ?_⟩
                      simp [end_phases]
                    · rw [phases_of_append,
                        phases_of_emit_other _ _ _ _ hid, List.append_nil]
                      exact hI3 id'
                  · intro sl id hsl
                    rw [log_ids_append, List.mem_append]
                    by_cases hss : sl = slot
                    · subst hss
                      rw [List.getElem?_set_eq_of_lt _ hlt] at hsl
                      simp at hsl
                    · rw [List.getElem?_set_ne
                          (fun hc => hss hc.symm)] at hsl
                      exact Or.inl (hI4 sl id hsl)
                  · intro e he
                    rw [List.mem_append] at he
                    simp only [List.length_set]
                    rcases he with h | h
                    · exact hI5 e h
                    · simp only [emit_for, List.mem_map] at h
                      obtain ⟨q, _, hq⟩ := h
                      rw [← hq]
                      exact hlt
                  · intro sl1 sl2 id h1 h2
                    by_cases h1s : sl1 = slot
                    · subst h1s
                      rw [List.getElem?_set_eq_of_lt _ hlt] at h1
                      simp at h1
                    · by_cases h2s : sl2 = slot
                      · subst h2s
                        rw [List.getElem?_set_eq_of_lt _ hlt] at h2
                        simp at h2
                      · rw [List.getElem?_set_ne
                          (fun hc => h1s hc.symm)] at h1
                        rw [List.getElem?_set_ne
                          (fun hc => h2s hc.symm)] at h2
                        exact hI6 sl1 sl2 id h1 h2
                  · intro x hx
                    rw [log_ids_append, List.mem_append] at hx
                    rcases hx with h | h
                    · exact Or.inl h
                    · rw [log_ids_emit] at h
                      have hx' := List.eq_of_mem_replicate h
                      exact Or.inl (by rw [hx']; exact hI4 slot oldid hcur)
  | motion slot =>
      cases hcur : s.slots[slot]? with
      | none =>
          have hs : touch_step hover s (.motion slot) = s := by
            simp [touch_step, hcur]
          rw [hs]
          exact ⟨⟨hI1, hI2, hI3, hI4, hI5, hI6⟩, fun x hx => Or.inl hx⟩
      | some cur =>
          cases cur with
          | none =>
              have hs : touch_step hover s (.motion slot) = s := by
                simp [touch_step, hcur]
              rw [hs]
              exact ⟨⟨hI1, hI2, hI3, hI4, hI5, hI6⟩, fun x hx => Or.inl hx⟩
          | some mid =>
              have hlt : slot < s.slots.length := by
                rcases List.getElem?_eq_some.mp hcur with ⟨h, _⟩
                exact h
              obtain ⟨p, dh0, k0, hdh0, hcb, hsllog, hph⟩ :=
                hI1 slot mid hcur
              have hs : touch_step hover s (.motion slot) =
                  ⟨s.slots,
                    s.log ++ emit_for slot mid [pointer_phase.kMove]⟩ := by
                simp [touch_step, hcur]
              rw [hs]
              refine ⟨⟨?_, ?_, ?_, ?_, ?_, ?_⟩, ?_⟩
              · intro sl id hsl
                by_cases hss : sl = slot
                · subst hss
                  rw [hcur] at hsl
                  simp only [Option.some.injEq] at hsl
                  subst hsl
                  refine ⟨p, dh0, k0 + 1, hdh0, hcb, ?_, ?_⟩
                  · rw [slot_log_append, hsllog, slot_log_emit_self,
                      List.append_assoc]
                    have : ((([pointer_phase.kMove]).map
                        fun q => ((mid : Nat), q)) :
                          List (Nat × pointer_phase)) =
                        [(mid, pointer_phase.kMove)] := rfl
                    rw [this, open_block_snoc]
                  · rw [phases_of_append, phases_of_emit_self, hph]
                    simp [List.replicate_succ']
                · obtain ⟨p', dh', k', hdh', hcb', hsllog', hph'⟩ :=
                    hI1 sl id hsl
                  have hidmid : id ≠ mid :=
                    fun hc => hss (hI6 sl slot id hsl (hc.symm ▸ hcur))
                  exact ⟨p', dh', k', hdh', hcb', by
                    rw [slot_log_append,
                      slot_log_emit_other _ _ _ _ hss,
                      List.append_nil, hsllog'], by
                    rw [phases_of_append,
                      phases_of_emit_other _ _ _ _ hidmid,
                      List.append_nil, hph']⟩
              · intro sl hsl
                by_cases hss : sl = slot
                · subst hss
                  rw [hcur] at hsl
                  simp at hsl
                · rw [slot_log_append,
                    slot_log_emit_other _ _ _ _ hss, List.append_nil]
                  exact hI2 sl hsl
              · intro id'
                by_cases hid : id' = mid
                · subst hid
                  rw [phases_of_append, phases_of_emit_self, hph]
                  right; left
                  refine ⟨dh0, k0 + 1, hdh0, ?_⟩
                  simp [List.replicate_succ']
                · rw [phases_of_append,
                    phases_of_emit_other _ _ _ _ hid, List.append_nil]
                  exact hI3 id'
              · intro sl id hsl
                rw [log_ids_append, List.mem_append]
                exact Or.inl (hI4 sl id hsl)
              · intro e he
                rw [List.mem_append] at he
                rcases he with h | h
                · exact hI5 e h
                · simp only [emit_for, List.mem_map] at h
                  obtain ⟨q, _, hq⟩ := h
                  rw [← hq]
                  exact hlt
              · exact hI6
              · intro x hx
                rw [log_ids_append, List.mem_append] at hx
                rcases hx with h | h
                · exact Or.inl h
                · rw [log_ids_emit] at h
                  have hx' := List.eq_of_mem_replicate h
                  exact Or.inl (by rw [hx']; exact hI4 slot mid hcur)

lemma touch_run_inv (hover : Bool) :
    ∀ (evs : List touch_event) (s : touch_state),
      touch_inv s →
      (∀ id, id ∈ started_ids evs → id ∉ log_ids s.log) →
      (started_ids evs).Nodup →
      touch_inv (touch_run hover s evs) := by
  intro evs
  induction evs with
  | nil => intro s hI _ _; exact hI
  | cons ev evs ih =>
      intro s hI hdisj hnodup
      rw [started_ids_cons] at hdisj hnodup
      rw [List.nodup_append] at hnodup
      obtain ⟨hn1, hn2, hn3⟩ := hnodup
      have hfresh : ∀ slot newid,
          ev = touch_event.tracking slot (some newid) →
          newid ∉ log_ids s.log := by
        intro slot newid hev
        apply hdisj
        subst hev
        simp [started_ids]
      obtain ⟨hI', hgrow⟩ := touch_step_inv hover s ev hI hfresh
      refine ih (touch_step hover s ev) hI' ?_ hn2
      intro id hid hmem
      rcases hgrow id hmem with h | h
      · exact hdisj id (List.mem_append_right _ hid) h
      · exact hn3 h hid

/- ==================================================================== -/
/- Theorems -/
/- ==================================================================== -/

/-- C9: memdup(src, n) returns NULL when src is NULL or n is 0; otherwise,
when allocation succeeds, it returns a block whose first n bytes equal the
first n bytes of src; and the two textually duplicated definitions of
memdup in flutter-pi.h and collection.h compute the same function. -/
theorem memdup_correct (ok : Bool) (src : Option (List Nat)) (n : Nat) :
    memdup ok src n = memdup_collection ok src n ∧
    (src = none → memdup ok src n = none) ∧
    (n = 0 → memdup ok src n = none) ∧
    (∀ s : List Nat, src = some s → n ≠ 0 →
      memdup true src n = some (s.take n)) := by
  refine ⟨rfl, ?_, ?_, ?_⟩
  · intro h; simp [memdup, h]
  · intro h; simp [memdup, h]
  · intro s hs hn
    subst hs
    simp [memdup, hn]

/-- Witness for C9 at a concrete input: duplicating the first two bytes of
[1, 2, 3] succeeds and yields [1, 2]. -/
theorem memdup_correct_witness :
    memdup true (some [1, 2, 3]) 2 = some [1, 2] := by
  have h := (memdup_correct true (some [1, 2, 3]) 2).2.2.2 [1, 2, 3] rfl
    (by decide)
  simpa using h

/-- C10: the claim states QUEUE_INITIALIZER(T, m) yields max_queue_size = m,
but the macro body uses the identifier _max_queue_size, which is not the
macro parameter (_max_size): at a use site where a variable _max_queue_size
with value 7 is in scope, QUEUE_INITIALIZER(T, 5) sets max_queue_size to 7,
not 5, and where no such variable is in scope the expansion does not
compile (modelled as none); CQUEUE_INITIALIZER has the same defect. -/
theorem QUEUE_INITIALIZER_ignores_max_size_argument :
    (QUEUE_INITIALIZER 4 5 (some 7)).map queue.max_queue_size = some 7 ∧
    (QUEUE_INITIALIZER 4 5 (some 7)).map queue.max_queue_size ≠ some 5 ∧
    QUEUE_INITIALIZER 4 5 none = none ∧
    (CQUEUE_INITIALIZER 4 5 (some 7)).map
      (fun c => c.queue.max_queue_size) = some 7 ∧
    (CQUEUE_INITIALIZER 4 5 (some 7)).map
      (fun c => c.queue.max_queue_size) ≠ some 5 := by
  refine ⟨rfl, by decide, rfl, rfl, by decide⟩

lemma traversal_eq_range (n : Nat) :
    iterate_next (fun cur => next_loop n cur 0 cur.isNone) (n + 1) none =
      List.range n := by
  refine iterate_next_range _ _ ?_ ?_
  · exact next_loop_from_null n
  · intro k hk; exact next_loop_from_elem n k hk

/-- C6: for each resource array (connectors, encoders, crtcs, planes) and
each connector's mode list, the __next_* traversal started from NULL
yields exactly the indices 0, ..., n-1 in array order, each exactly once,
then NULL; mapping the indices through the array recovers the elements in
enumeration order, and since the traversal is a pure function of the
device, restarting it from NULL yields the same sequence again. -/
theorem next_traversal_enumerates (d : drmdev) (c : drm_connector)
    (hc : d.n_connectors = d.connectors.length)
    (he : d.n_encoders = d.encoders.length)
    (ht : d.n_crtcs = d.crtcs.length)
    (hp : d.n_planes = d.planes.length)
    (hm : c.count_modes = c.modes.length) :
    connector_traversal d = List.range d.n_connectors ∧
    (connector_traversal d).map (fun i => d.connectors[i]?) =
      d.connectors.map some ∧
    (connector_traversal d).Nodup ∧
    encoder_traversal d = List.range d.n_encoders ∧
    (encoder_traversal d).map (fun i => d.encoders[i]?) =
      d.encoders.map some ∧
    (encoder_traversal d).Nodup ∧
    crtc_traversal d = List.range d.n_crtcs ∧
    (crtc_traversal d).map (fun i => d.crtcs[i]?) = d.crtcs.map some ∧
    (crtc_traversal d).Nodup ∧
    plane_traversal d = List.range d.n_planes ∧
    (plane_traversal d).map (fun i => d.planes[i]?) = d.planes.map some ∧
    (plane_traversal d).Nodup ∧
    mode_traversal c = List.range c.count_modes ∧
    (mode_traversal c).map (fun i => c.modes[i]?) = c.modes.map some ∧
    (mode_traversal c).Nodup := by
  have hcr : connector_traversal d = List.range d.n_connectors :=
    traversal_eq_range d.n_connectors
  have her : encoder_traversal d = List.range d.n_encoders :=
    traversal_eq_range d.n_encoders
  have htr : crtc_traversal d = List.range d.n_crtcs :=
    traversal_eq_range d.n_crtcs
  have hpr : plane_traversal d = List.range d.n_planes :=
    traversal_eq_range d.n_planes
  have hmr : mode_traversal c = List.range c.count_modes :=
    traversal_eq_range c.count_modes
  refine ⟨hcr, ?_, ?_, her, ?_, ?_, htr, ?_, ?_, hpr, ?_, ?_, hmr, ?_, ?_⟩
  · rw [hcr, hc]; exact map_getElem?_range d.connectors
  · rw [hcr]; exact List.nodup_range _
  · rw [her, he]; exact map_getElem?_range d.encoders
  · rw [her]; exact List.nodup_range _
  · rw [htr, ht]; exact map_getElem?_range d.crtcs
  · rw [htr]; exact List.nodup_range _
  · rw [hpr, hp]; exact map_getElem?_range d.planes
  · rw [hpr]; exact List.nodup_range _
  · rw [hmr, hm]; exact map_getElem?_range c.modes
  · rw [hmr]; exact List.nodup_range _

/-- A concrete device with two connectors, one encoder, two crtcs, three
planes, and a connector with two modes. -/
def sample_connector : drm_connector :=
  { connector_id := 30, count_modes := 2, modes := [1080, 720],
    props := [("CRTC_ID", 20)] }

def sample_drmdev : drmdev :=
  { fd := 3
    n_connectors := 2
    connectors := [sample_connector,
      { connector_id := 31, count_modes := 0, modes := [], props := [] }]
    n_encoders := 1
    encoders := [{ encoder_id := 40 }]
    n_crtcs := 2
    crtcs := [{ crtc_id := 50, props := [("MODE_ID", 21)] },
      { crtc_id := 51, props := [] }]
    n_planes := 3
    planes := [{ plane_id := 60, props := [("FB_ID", 22)] },
      { plane_id := 61, props := [] }, { plane_id := 62, props := [] }]
    is_configured := true
    selected_connector := some 0
    selected_encoder := some 0
    selected_crtc := some 0
    selected_mode := some 0
    selected_mode_blob_id := 99 }

/-- Witness for C6 on the concrete device. -/
theorem next_traversal_enumerates_witness :
    connector_traversal sample_drmdev = [0, 1] ∧
    plane_traversal sample_drmdev = [0, 1, 2] ∧
    mode_traversal sample_connector = [0, 1] := by
  have h := next_traversal_enumerates sample_drmdev sample_connector
    rfl rfl rfl rfl rfl
  refine ⟨?_, ?_, ?_⟩
  · rw [h.1]; decide
  · rw [h.2.2.2.2.2.2.2.2.2.1]; decide
  · rw [h.2.2.2.2.2.2.2.2.2.2.2.2.1]; decide

/-- C8: the task discriminator ranges over exactly the ten kinds
vblank-request, vblank-reply (whose union member carries a timestamp and a
baton, and nothing else), orientation-update, outgoing-platform-message,
message-response, engine task, external-texture register / unregister /
frame-available, and generic callback; and every task value carries a
target_time field. -/
theorem flutterpi_task_type_complete :
    (∀ t : flutterpi_task_type, t ∈ all_task_types) ∧
    all_task_types.Nodup ∧
    all_task_types.length = 10 ∧
    task_union .kVBlankReply = vblank_data ∧
    (∀ d : vblank_data, d = ⟨d.vblank_ns, d.baton⟩) ∧
    (∀ task : flutterpi_task, ∃ tt : Nat, task.target_time = tt) := by
  refine ⟨?_, by decide, rfl, rfl, ?_, ?_⟩
  · intro t; cases t <;> decide
  · intro d; cases d; rfl
  · intro task; exact ⟨task.target_time, rfl⟩

/-- C7: for a configured device, each put-property variant resolves the
name against that specific object's cached property table: when the name
exists it queues exactly the (object id, property id, value) triple, and
when it does not it fails with UnknownProperty and queues nothing. -/
theorem put_property_resolves_or_fails (req : drmdev_atomic_req)
    (name : String) (value : Nat) :
    (∀ i conn, req.drmdev.selected_connector = some i →
      req.drmdev.connectors[i]? = some conn →
      (∀ pid, lookup_prop conn.props name = some pid →
        drmdev_atomic_req_put_connector_property req name value =
          .ok { req with
            atomic_req := req.atomic_req ++ [(conn.connector_id, pid, value)] }) ∧
      (lookup_prop conn.props name = none →
        drmdev_atomic_req_put_connector_property req name value =
          .error .UnknownProperty)) ∧
    (∀ i crtc, req.drmdev.selected_crtc = some i →
      req.drmdev.crtcs[i]? = some crtc →
      (∀ pid, lookup_prop crtc.props name = some pid →
        drmdev_atomic_req_put_crtc_property req name value =
          .ok { req with
            atomic_req := req.atomic_req ++ [(crtc.crtc_id, pid, value)] }) ∧
      (lookup_prop crtc.props name = none →
        drmdev_atomic_req_put_crtc_property req name value =
          .error .UnknownProperty)) ∧
    (∀ plane_id pl, find_plane req.drmdev.planes plane_id = some pl →
      (∀ pid, lookup_prop pl.props name = some pid →
        drmdev_atomic_req_put_plane_property req plane_id name value =
          .ok { req with
            atomic_req := req.atomic_req ++ [(pl.plane_id, pid, value)] }) ∧
      (lookup_prop pl.props name = none →
        drmdev_atomic_req_put_plane_property req plane_id name value =
          .error .UnknownProperty)) := by
  refine ⟨?_, ?_, ?_⟩
  · intro i conn hi hconn
    have hsel : req.drmdev.selected_connector.bind
        (fun j => req.drmdev.connectors[j]?) = some conn := by
      rw [hi]; simpa using hconn
    constructor
    · intro pid hpid
      simp [drmdev_atomic_req_put_connector_property, hsel,
        atomic_req_put_property, hpid]
    · intro hpid
      simp [drmdev_atomic_req_put_connector_property, hsel,
        atomic_req_put_property, hpid]
  · intro i crtc hi hcrtc
    have hsel : req.drmdev.selected_crtc.bind
        (fun j => req.drmdev.crtcs[j]?) = some crtc := by
      rw [hi]; simpa using hcrtc
    constructor
    · intro pid hpid
      simp [drmdev_atomic_req_put_crtc_property, hsel,
        atomic_req_put_property, hpid]
    · intro hpid
      simp [drmdev_atomic_req_put_crtc_property, hsel,
        atomic_req_put_property, hpid]
  · intro plane_id pl hpl
    constructor
    · intro pid hpid
      simp [drmdev_atomic_req_put_plane_property, hpl,
        atomic_req_put_property, hpid]
    · intro hpid
      simp [drmdev_atomic_req_put_plane_property, hpl,
        atomic_req_put_property, hpid]

/-- Witness for C7 on the concrete device: a known connector property is
queued with its cached id, an unknown name fails with UnknownProperty. -/
theorem put_property_resolves_or_fails_witness :
    drmdev_atomic_req_put_connector_property ⟨sample_drmdev, []⟩ "CRTC_ID" 50 =
      .ok ⟨sample_drmdev, [(30, 20, 50)]⟩ ∧
    drmdev_atomic_req_put_connector_property ⟨sample_drmdev, []⟩ "NO_SUCH" 1 =
      .error .UnknownProperty := by
  have h := put_property_resolves_or_fails ⟨sample_drmdev, []⟩ "CRTC_ID" 50
  have h2 := put_property_resolves_or_fails ⟨sample_drmdev, []⟩ "NO_SUCH" 1
  constructor
  · have hr := (h.1 0 sample_connector rfl rfl).1 20 (by decide)
    simpa using hr
  · exact (h2.1 0 sample_connector rfl rfl).2 (by decide)

/-- C4: if looking a buffer object up in the framebuffer cache succeeds,
looking the same buffer identity up again returns the same framebuffer id
and the unchanged cache (a pure cache hit), and across the two calls at
most one kernel framebuffer object is created. -/
theorem drm_fb_get_from_bo_cached (ka : Nat → Bool) (cache : fb_cache)
    (bo id1 : Nat) (c1 : fb_cache)
    (h : drm_fb_get_from_bo ka cache bo = .ok (id1, c1)) :
    drm_fb_get_from_bo ka c1 bo = .ok (id1, c1) ∧
    c1.kernel_fb_objects_created ≤ cache.kernel_fb_objects_created + 1 := by
  cases hf : find_fb cache.fbs bo with
  | some fb =>
      simp only [drm_fb_get_from_bo, hf, Except.ok.injEq, Prod.mk.injEq] at h
      rcases h with ⟨h1, h2⟩
      subst h1; subst h2
      constructor
      · simp only [drm_fb_get_from_bo, hf]
      · omega
  | none =>
      simp only [drm_fb_get_from_bo, hf] at h
      by_cases hk : ka bo
      · rw [if_pos hk] at h
        simp only [Except.ok.injEq, Prod.mk.injEq] at h
        rcases h with ⟨h1, h2⟩
        subst h1; subst h2
        constructor
        · simp only [drm_fb_get_from_bo, find_fb_append_self _ _ _ hf]
        · simp
      · rw [if_neg hk] at h
        exact absurd h (by simp)

/-- Witness for C4: after creating the framebuffer for buffer 7 from an
empty cache, the second lookup is a hit returning the same id 5 and the
unchanged cache. -/
theorem drm_fb_get_from_bo_cached_witness :
    drm_fb_get_from_bo (fun _ => true) ⟨[⟨7, 5⟩], 6, 1⟩ 7 =
      .ok (5, ⟨[⟨7, 5⟩], 6, 1⟩) :=
  (drm_fb_get_from_bo_cached (fun _ => true) ⟨[], 5, 0⟩ 7 5
    ⟨[⟨7, 5⟩], 6, 1⟩ rfl).1

/-- C2: for every finite sequence of posted target times, the consumer's
repeated wait_and_take_next returns exactly the posted tasks (a
permutation, nothing dropped or duplicated), in non-decreasing
target-time order, and among tasks with equal target time in FIFO order
of their submission (the delivered sequence is pairwise
delivered_before). -/
theorem wait_and_take_next_ordered (times : List Nat) :
    (deliveries times).Perm (submit_all times 0) ∧
    (deliveries times).Pairwise delivered_before ∧
    (deliveries times).Pairwise
      (fun a b => a.target_time ≤ b.target_time) := by
  obtain ⟨hperm, hpair⟩ := drain_queue_spec (submit_all times 0).length
    (submit_all times 0) le_rfl (submit_all_pairwise times 0)
  refine ⟨hperm, hpair, ?_⟩
  refine hpair.imp ?_
  intro a b h
  rcases h with h | h
  · exact le_of_lt h
  · exact le_of_eq h.1

/-- C1: starting Idle with any work queue whose frame ids are distinct,
after any number of presentation-loop iterations at most one atomic
commit is in flight (commits issued exceed confirmed flips by at most
one, and by exactly one precisely in the CommitPending state); frame
submissions arriving while a commit is pending are re-queued, never
dropped (the committed frames plus the still-queued frames are a
permutation of the initially queued frames); and no frame is ever
committed twice (the commit log has no duplicates). -/
theorem presentation_loop_one_commit_in_flight (q0 : List work_item)
    (n : Nat) (hnodup : (frame_ids q0).Nodup) :
    in_flight (loop_run n (loop_init q0)) ≤ 1 ∧
    (loop_run n (loop_init q0)).commits_issued =
      (loop_run n (loop_init q0)).flips_completed +
        (if (loop_run n (loop_init q0)).st = .CommitPending then 1 else 0) ∧
    ((loop_run n (loop_init q0)).committed ++
        frame_ids (loop_run n (loop_init q0)).queue).Perm (frame_ids q0) ∧
    (loop_run n (loop_init q0)).committed.Nodup := by
  have hinv : loop_inv q0 (loop_run n (loop_init q0)) := by
    refine loop_run_inv q0 n (loop_init q0) ⟨by simp [loop_init], ?_⟩
    simp [loop_init]
  obtain ⟨hcount, hperm⟩ := hinv
  refine ⟨?_, hcount, hperm, ?_⟩
  · unfold in_flight
    by_cases h : (loop_run n (loop_init q0)).st = .CommitPending
    · rw [if_pos h] at hcount; omega
    · rw [if_neg h] at hcount; omega
  · have hnd : ((loop_run n (loop_init q0)).committed ++
        frame_ids (loop_run n (loop_init q0)).queue).Nodup :=
      hperm.nodup_iff.mpr hnodup
    exact hnd.of_append_left

/-- Witness for C1: two frames posted back to back and one flip event,
run for five iterations. -/
theorem presentation_loop_one_commit_in_flight_witness :
    in_flight (loop_run 5 (loop_init
      [work_item.frame 1, work_item.frame 2, work_item.hw_event])) ≤ 1 ∧
    (loop_run 5 (loop_init
      [work_item.frame 1, work_item.frame 2, work_item.hw_event])).commits_issued =
      (loop_run 5 (loop_init
        [work_item.frame 1, work_item.frame 2, work_item.hw_event])).flips_completed +
        (if (loop_run 5 (loop_init
          [work_item.frame 1, work_item.frame 2, work_item.hw_event])).st =
            .CommitPending then 1 else 0) ∧
    ((loop_run 5 (loop_init
        [work_item.frame 1, work_item.frame 2, work_item.hw_event])).committed ++
      frame_ids (loop_run 5 (loop_init
        [work_item.frame 1, work_item.frame 2, work_item.hw_event])).queue).Perm
        (frame_ids [work_item.frame 1, work_item.frame 2, work_item.hw_event]) ∧
    (loop_run 5 (loop_init
      [work_item.frame 1, work_item.frame 2, work_item.hw_event])).committed.Nodup :=
  presentation_loop_one_commit_in_flight
    [work_item.frame 1, work_item.frame 2, work_item.hw_event] 5 (by decide)

/-- C3: in every state reachable by the page-flip lifecycle from a fresh
device, a buffer is never marked releasable while it is the
currently-displayed buffer (every marking pairs the marked buffer with
the — different — buffer displayed at that instant), and a buffer is
never marked releasable before the commit that replaces it has been
accepted by the kernel: the marking log is exactly a prefix of the
accepted-commit log (the remainder being the still-pending record), so
every marking replays an earlier accepted commit, in order. -/
theorem buffer_release_ordering (c0 : Nat) (evs : List flip_input) :
    (∀ p ∈ (flip_run (flip_init c0) evs).marked_releasable, p.1 ≠ p.2) ∧
    (flip_run (flip_init c0) evs).commits_accepted =
      (flip_run (flip_init c0) evs).marked_releasable ++
        pending_entries (flip_run (flip_init c0) evs) ∧
    (flip_run (flip_init c0) evs).marked_releasable.length ≤
      (flip_run (flip_init c0) evs).commits_accepted.length := by
  have hinv : flip_inv (flip_run (flip_init c0) evs) := by
    refine flip_run_inv evs (flip_init c0) ⟨?_, ?_, ?_⟩
    · intro pd newbo h
      exact absurd h (by simp [flip_init])
    · simp [flip_init, pending_entries]
    · intro p hp
      exact absurd hp (by simp [flip_init])
  obtain ⟨hpend, hlog, hmark⟩ := hinv
  refine ⟨hmark, hlog, ?_⟩
  rw [hlog]
  simp

/-- C5: for every multitouch event sequence in which the kernel never
recycles a tracking id (each id starts at most one contact), every
tracking id's emitted phase sequence is empty, or add then down/hover
then moves (contact still open at the end of input), or add then
down/hover then moves then up then remove (completed contact); and every
slot's restricted log decomposes into completed contact blocks — each
ending in remove — followed by at most one open block, so a slot is never
reassigned to a new tracking id before the prior contact's remove has
been emitted. -/
theorem multitouch_phase_order (hover : Bool) (n : Nat)
    (evs : List touch_event) (hnodup : (started_ids evs).Nodup) :
    (∀ id : Nat,
      phases_of id (touch_run hover (touch_init n) evs).log = [] ∨
      open_phase_seq (phases_of id (touch_run hover (touch_init n) evs).log) ∨
      closed_phase_seq
        (phases_of id (touch_run hover (touch_init n) evs).log)) ∧
    (∀ sl : Nat,
      closed_blocks (slot_log sl (touch_run hover (touch_init n) evs).log) ∨
      ∃ p id dh k, (dh = pointer_phase.kHover ∨ dh = pointer_phase.kDown) ∧
        closed_blocks p ∧
        slot_log sl (touch_run hover (touch_init n) evs).log =
          p ++ open_block id dh k) := by
  have hI0 : touch_inv (touch_init n) := by
    refine ⟨?_, ?_, ?_, ?_, ?_, ?_⟩
    · intro sl id h
      have hmem := List.getElem?_mem h
      have heq := List.eq_of_mem_replicate hmem
      exact absurd heq (by simp)
    · intro sl _
      exact closed_blocks.nil
    · intro id
      left
      rfl
    · intro sl id h
      have hmem := List.getElem?_mem h
      have heq := List.eq_of_mem_replicate hmem
      exact absurd heq (by simp)
    · intro e he
      exact absurd he (by simp [touch_init])
    · intro sl1 sl2 id h1 _
      have hmem := List.getElem?_mem h1
      have heq := List.eq_of_mem_replicate hmem
      exact absurd heq (by simp)
  have hinv := touch_run_inv hover evs (touch_init n) hI0
    (by intro id _ h; simp [touch_init, log_ids] at h) hnodup
  obtain ⟨hI1, hI2, hI3, hI4, hI5, hI6⟩ := hinv
  refine ⟨hI3, ?_⟩
  intro sl
  cases hsl : (touch_run hover (touch_init n) evs).slots[sl]? with
  | none =>
      left
      have hlen := List.getElem?_eq_none_iff.mp hsl
      have hnil : slot_log sl (touch_run hover (touch_init n) evs).log = [] := by
        refine slot_log_eq_nil sl _ ?_
        intro e he hc
        have := hI5 e he
        omega
      rw [hnil]
      exact closed_blocks.nil
  | some cur =>
      cases cur with
      | none =>
          left
          exact hI2 sl hsl
      | some id =>
          right
          obtain ⟨p, dh, k, hdh, hcb, heq, _⟩ := hI1 sl id hsl
          exact ⟨p, id, dh, k, hdh, hcb, heq⟩

/-- Witness for C5: a contact with tracking id 5 appears on slot 0, moves
once, and disappears, on a two-slot non-hover device. -/
theorem multitouch_phase_order_witness :
    (∀ id : Nat,
      phases_of id (touch_run false (touch_init 2)
        [touch_event.tracking 0 (some 5), touch_event.motion 0,
          touch_event.tracking 0 none]).log = [] ∨
      open_phase_seq (phases_of id (touch_run false (touch_init 2)
        [touch_event.tracking 0 (some 5), touch_event.motion 0,
          touch_event.tracking 0 none]).log) ∨
      closed_phase_seq (phases_of id (touch_run false (touch_init 2)
        [touch_event.tracking 0 (some 5), touch_event.motion 0,
          touch_event.tracking 0 none]).log)) ∧
    (∀ sl : Nat,
      closed_blocks (slot_log sl (touch_run false (touch_init 2)
        [touch_event.tracking 0 (some 5), touch_event.motion 0,
          touch_event.tracking 0 none]).log) ∨
      ∃ p id dh k, (dh = pointer_phase.kHover ∨ dh = pointer_phase.kDown) ∧
        closed_blocks p ∧
        slot_log sl (touch_run false (touch_init 2)
          [touch_event.tracking 0 (some 5), touch_event.motion 0,
            touch_event.tracking 0 none]).log = p ++ open_block id dh k) :=
  multitouch_phase_order false 2
    [touch_event.tracking 0 (some 5), touch_event.motion 0,
      touch_event.tracking 0 none] (by decide)
